import Mathlib

/-!
Shallow embedding of `src/apriori.py` — the class `Apriori` (a level-wise
Apriori frequent-item-set miner) and its `main` driver — together with
machine-checked proofs of the specification's claims about it.

Correspondence with the Python source:
* an item (SKU) is a Python `int`, embedded as `Int`;
* an item-set is a Python tuple of ints, embedded as `List Int`
  (the algorithm only ever builds sorted, duplicate-free tuples);
* a per-level frequency table (`Counter` / `defaultdict(int)`) is embedded
  as an association list `List (ItemSet × Nat)` in key-insertion order;
* `Apriori.candidate_item_sets` is a `List (List ItemSet)`, one candidate
  list per retained transaction;
* the `while` loop of `Apriori.get_frequent_itemsets` is embedded as a
  fuel-indexed recursion (`minerLoop`); a stabilization theorem shows the
  chosen fuel always suffices, i.e. the Python loop terminates.
-/

namespace AprioriModel

abbrev Item := Int

abbrev ItemSet := List Item

/-- Python tuple comparison `x < y`: lexicographic, a strict prefix being
smaller than any of its extensions. -/
def listLt : List Int → List Int → Bool
  | [], [] => false
  | [], _ :: _ => true
  | _ :: _, [] => false
  | a :: as, b :: bs => if a < b then true else if b < a then false else listLt as bs

/-- Insert an item into a strictly sorted list, keeping it strictly sorted
and dropping the item if already present. -/
def insortD (a : Item) : List Item → List Item
  | [] => [a]
  | b :: bs => if a < b then a :: b :: bs else if a = b then b :: bs else b :: insortD a bs

/-- Python's `sorted(set(l))`: the strictly increasing enumeration of the
distinct elements of `l`. -/
def distinctSorted (l : List Item) : List Item := l.foldr insortD []

/-- Python's `tuple(sorted(frozenset(x).union(y)))` from the candidate
generation step. -/
def sortedUnion (x y : ItemSet) : ItemSet := distinctSorted (x ++ y)

/-- Run configuration: `min_itemset_size`, `sigma` (Python ints) and the
`verbose` flag. -/
structure Config where
  minSize : Int
  sigma : Int
  verbose : Bool

/-- One raw transaction record reduced to its distinct items,
`set(map(int, transaction.strip().split()))`, enumerated in the sorted
order the source imposes on its singleton tuples. -/
def txItems (raw : List Int) : List Item := distinctSorted raw

/-- The singleton item-sets `[tuple([sku]) for sku in ...]` of a
transaction, in sorted order (`sorted(itemsets)`). -/
def singletons (t : List Item) : List ItemSet := t.map (fun a => [a])

/-- The transactions retained by `Apriori._get_transaction_log_data`:
those whose distinct-item count is at least `min_itemset_size`, in
original record order. -/
def retainedTx (cfg : Config) (input : List (List Int)) : List (List Item) :=
  (input.map txItems).filter (fun t => decide (cfg.minSize ≤ (t.length : Int)))

/-- The initial value of `Apriori.candidate_item_sets`: one sorted list of
singleton item-sets per retained transaction. -/
def initialCands (cfg : Config) (input : List (List Int)) : List (List ItemSet) :=
  (retainedTx cfg input).map singletons

/-- The level frequency table accumulated by repeated
`frequent_item_sets[k][item_set] += 1` over every transaction's candidate
list: keys in first-occurrence order, each mapped to its total number of
occurrences. -/
def buildTable (cands : List (List ItemSet)) : List (ItemSet × Nat) :=
  cands.flatten.dedup.map (fun S => (S, cands.flatten.count S))

/-- The key list of a frequency table (what Python's `in dict` consults). -/
def keysOf (tbl : List (ItemSet × Nat)) : List ItemSet := tbl.map Prod.fst

/-- `Apriori._get_frequent_itemsets`: keep exactly the entries whose count
is at least `sigma`, preserving key order. -/
def prune (sigma : Int) (tbl : List (ItemSet × Nat)) : List (ItemSet × Nat) :=
  tbl.filter (fun p => decide (sigma ≤ (p.2 : Int)))

/-- The per-transaction narrowing
`[item_set for item_set in candidate_item_sets[i] if item_set in frequent_item_sets[k-1]]`. -/
def narrow (freq : List (ItemSet × Nat)) (l : List ItemSet) : List ItemSet :=
  l.filter (fun x => (keysOf freq).contains x)

/-- The Fk-1 × Fk-1 join over one transaction's narrowed list:
`[tuple(sorted(frozenset(x).union(y))) for x in f for y in f if x < y and x[:-1] == y[:-1]]`. -/
def joinPairs (f : List ItemSet) : List ItemSet :=
  f.flatMap (fun x => f.filterMap (fun y =>
    if listLt x y = true ∧ x.dropLast = y.dropLast then some (sortedUnion x y) else none))

/-- Python's `sorted(..., key=lambda x: (-x[1], x[0]))` comparison, as a
boolean "comes no later than" test on (item-set, count) pairs. -/
def recLE (p q : ItemSet × Nat) : Bool :=
  if p.2 = q.2 then !(listLt q.1 p.1) else decide (q.2 < p.2)

/-- One output record: level, count, and the item-set's items. -/
abbrev OutRecord := Nat × Nat × ItemSet

/-- Emission of one level (source lines 98–104): if the level is at least
`min_itemset_size`, the pruned table's entries sorted by descending count
with ties broken by ascending item-set order; otherwise nothing.  Python's
`sorted` is a stable sort by the key `(-count, item_set)`; a stable
insertion sort by the same comparison produces the identical sequence. -/
def emitLevel (cfg : Config) (k : Nat) (freq : List (ItemSet × Nat)) : List OutRecord :=
  if cfg.minSize ≤ (k : Int) then
    (freq.insertionSort (fun p q => recLE p q = true)).map (fun p => (k, p.2, p.1))
  else []

/-- The diagnostic line `_get_frequent_itemsets` prints when verbose. -/
def levelMsg (k rawN prunedN : Nat) (sigma : Int) : String :=
  toString k ++ ". Candidate item-sets of size " ++ toString k ++ " = " ++ toString rawN ++
    " and with sigma >= " ++ toString sigma ++ " = " ++ toString prunedN

/-- The per-level update of `Apriori.candidate_item_sets` (source lines
78–89): every transaction's list is narrowed to the previous level's
frequent sets and replaced by the join's output. -/
def stepCands (freqPrev : List (ItemSet × Nat)) (cands : List (List ItemSet)) :
    List (List ItemSet) :=
  cands.map (fun l => joinPairs (narrow freqPrev l))

/-- The `while` loop of `Apriori.get_frequent_itemsets` (source lines
76–107), fuel-indexed.  At entry of iteration `k`, `cands` holds each
retained transaction's size-(k−1) candidate list and `freqPrev` the pruned
level-(k−1) table; the guard is `len(freqPrev) >= k`.  Returns the emitted
records together with the verbose diagnostics printed along the way. -/
def minerLoop (cfg : Config) : Nat → List (List ItemSet) → List (ItemSet × Nat) → Nat →
    List OutRecord × List String
  | _, _, _, 0 => ([], [])
  | k, cands, freqPrev, fuel + 1 =>
    if k ≤ freqPrev.length then
      (emitLevel cfg k (prune cfg.sigma (buildTable (stepCands freqPrev cands))) ++
        (minerLoop cfg (k + 1) (stepCands freqPrev cands)
          (prune cfg.sigma (buildTable (stepCands freqPrev cands))) fuel).1,
        (if cfg.verbose then
            [levelMsg k (buildTable (stepCands freqPrev cands)).length
              (prune cfg.sigma (buildTable (stepCands freqPrev cands))).length cfg.sigma]
          else []) ++
          (minerLoop cfg (k + 1) (stepCands freqPrev cands)
            (prune cfg.sigma (buildTable (stepCands freqPrev cands))) fuel).2)
    else ([], [])

/-- The level-1 frequency table accumulated while loading (before the
level-1 pruning on source line 63). -/
def table1 (cfg : Config) (input : List (List Int)) : List (ItemSet × Nat) :=
  buildTable (initialCands cfg input)

/-- The pruned level-1 table that seeds the mining loop. -/
def freq1 (cfg : Config) (input : List (List Int)) : List (ItemSet × Nat) :=
  prune cfg.sigma (table1 cfg input)

/-- Fuel that always suffices for `minerLoop`: two more than the largest
distinct-item count of any input transaction (no item-set larger than a
transaction is ever generated). -/
def fuelBound (input : List (List Int)) : Nat :=
  (input.map (fun raw => (txItems raw).length)).foldr max 0 + 2

/-- The verbose header printed by `_get_transaction_log_data`. -/
def readMsg (cfg : Config) : String :=
  "Reading data from the input file. Transactions with a minimum of " ++
    toString cfg.minSize ++ " unique SKUs will be considered"

/-- The verbose footer printed at the end of `get_frequent_itemsets`. -/
def doneMsg : String := "Output is written to the file"

/-- A whole `Apriori(...).get_frequent_itemsets()` run on already-parsed
transactions: the emitted records and the verbose diagnostics. -/
def aprioriD (cfg : Config) (input : List (List Int)) : List OutRecord × List String :=
  ((minerLoop cfg 2 (initialCands cfg input) (freq1 cfg input) (fuelBound input)).1,
    (if cfg.verbose then
        [readMsg cfg, levelMsg 1 (table1 cfg input).length (freq1 cfg input).length cfg.sigma]
      else []) ++
      (minerLoop cfg 2 (initialCands cfg input) (freq1 cfg input) (fuelBound input)).2 ++
      (if cfg.verbose then [doneMsg] else []))

/-- The emitted records of a run. -/
def apriori (cfg : Config) (input : List (List Int)) : List OutRecord :=
  (aprioriD cfg input).1

/-- One output line, exactly as written by source lines 102–104:
level, count and the items, space-separated with a trailing space, then a
newline. -/
def renderRecord : OutRecord → String :=
  fun r => toString r.1 ++ " " ++ toString r.2.1 ++ " " ++
    String.join (r.2.2.map (fun a => toString a ++ " ")) ++ "\n"

/-- The byte content appended to the output file over a whole run. -/
def renderOutput (rs : List OutRecord) : String := String.join (rs.map renderRecord)

/-- The `main` driver's effect on the output file: `main` first truncates
the file (source lines 135–138) and the run then appends one line per
record, so the file's final content is a function of the run alone,
whatever the file held before. -/
def mainRun (cfg : Config) (input : List (List Int)) : String → String :=
  fun _prior => "" ++ renderOutput (apriori cfg input)

/-- Helper for whitespace tokenization: walks the characters with an
accumulator of the current (reversed) token. -/
def wsTokens : List Char → List Char → List String
  | [], acc => if acc.isEmpty then [] else [String.mk acc.reverse]
  | c :: cs, acc =>
    if c.isWhitespace then
      if acc.isEmpty then wsTokens cs [] else String.mk acc.reverse :: wsTokens cs []
    else wsTokens cs (c :: acc)

/-- Python's `transaction.strip().split()`: the maximal whitespace-free
runs of the line, in order. -/
def lineTokens (s : String) : List String := wsTokens s.toList []

/-- Accumulator pass over decimal digit characters; fails on the first
non-digit. -/
def decDigitsAux (acc : Nat) : List Char → Option Nat
  | [] => some acc
  | c :: cs => if c.isDigit then decDigitsAux (acc * 10 + (c.toNat - 48)) cs else none

/-- Python's built-in `int(token)` on a whitespace-free token, modelled as
an optional sign followed by one or more decimal digits (`none` is the
`ValueError` raise; Python extras such as digit-group underscores are not
modelled). -/
def pyInt (s : String) : Option Int :=
  match s.toList with
  | [] => none
  | '-' :: cs => if cs.isEmpty then none else (decDigitsAux 0 cs).map (fun n => -(n : Int))
  | '+' :: cs => if cs.isEmpty then none else (decDigitsAux 0 cs).map (fun n => (n : Int))
  | cs => (decDigitsAux 0 cs).map (fun n => (n : Int))

/-- Parse one transaction line with `map(int, ...)`; a `ValueError` on any
token aborts the whole read. -/
def parseLine (s : String) : Option (List Int) := (lineTokens s).mapM pyInt

/-- Read the whole transaction log; a malformed token in any line
propagates and no result is produced. -/
def parseLog (lines : List String) : Option (List (List Int)) := lines.mapM parseLine

/-- A full run starting from the raw text lines of the log file. -/
def aprioriFromLines (cfg : Config) (lines : List String) : Option (List OutRecord) :=
  (parseLog lines).map (apriori cfg)

/-- The number of transactions in `ts` that contain every item of `S`. -/
def supersetCount (S : ItemSet) (ts : List (List Item)) : Nat :=
  ts.countP (fun t => S.all (fun a => t.contains a))

end AprioriModel

namespace AprioriModel

/-! ### Order lemmas for Python tuple comparison -/

theorem listLt_irrefl : ∀ x : List Int, listLt x x = false
  | [] => rfl
  | a :: as => by simp [listLt, listLt_irrefl as]

theorem listLt_trans : ∀ x y z : List Int,
    listLt x y = true → listLt y z = true → listLt x z = true
  | [], [], _, h, _ => by simp [listLt] at h
  | [], _ :: _, [], _, h => by simp [listLt] at h
  | [], _ :: _, _ :: _, _, _ => rfl
  | _ :: _, [], _, h, _ => by simp [listLt] at h
  | _ :: _, _ :: _, [], _, h => by simp [listLt] at h
  | a :: as, b :: bs, c :: cs, h₁, h₂ => by
    simp only [listLt] at h₁ h₂ ⊢
    by_cases hab : a < b
    · by_cases hbc : b < c
      · simp [lt_trans hab hbc]
      · by_cases hcb : c < b
        · simp [hbc, hcb] at h₂
        · have hbceq : b = c := le_antisymm (not_lt.mp hcb) (not_lt.mp hbc)
          subst hbceq; simp [hab]
    · by_cases hba : b < a
      · simp [hab, hba] at h₁
      · have hab' : a = b := le_antisymm (not_lt.mp hba) (not_lt.mp hab)
        subst hab'
        by_cases hac : a < c
        · simp [hac]
        · by_cases hca : c < a
          · simp [hac, hca] at h₂
          · have hac' : a = c := le_antisymm (not_lt.mp hca) (not_lt.mp hac)
            subst hac'
            simp only [lt_self_iff_false, if_false] at h₁ h₂ ⊢
            exact listLt_trans as bs cs h₁ h₂

theorem listLt_total : ∀ x y : List Int, x = y ∨ listLt x y = true ∨ listLt y x = true
  | [], [] => Or.inl rfl
  | [], _ :: _ => Or.inr (Or.inl rfl)
  | _ :: _, [] => Or.inr (Or.inr rfl)
  | a :: as, b :: bs => by
    rcases lt_trichotomy a b with h | h | h
    · exact Or.inr (Or.inl (by simp [listLt, h]))
    · subst h
      rcases listLt_total as bs with h' | h' | h'
      · exact Or.inl (by rw [h'])
      · exact Or.inr (Or.inl (by simp [listLt, h']))
      · exact Or.inr (Or.inr (by simp [listLt, h']))
    · exact Or.inr (Or.inr (by simp [listLt, h]))

theorem listLt_asymm {x y : List Int} (h : listLt x y = true) : listLt y x = false := by
  cases h' : listLt y x with
  | false => rfl
  | true =>
    have := listLt_trans x y x h h'
    rw [listLt_irrefl] at this
    exact (Bool.false_ne_true this).elim

theorem listLt_append_same : ∀ (p x y : List Int), listLt (p ++ x) (p ++ y) = listLt x y
  | [], _, _ => rfl
  | a :: p, x, y => by simp [listLt, listLt_append_same p x y]

theorem listLt_singleton {a b : Int} : listLt [a] [b] = true ↔ a < b := by
  by_cases h : a < b
  · simp [listLt, h]
  · by_cases h' : b < a
    · simp [listLt, h, h']
    · simp [listLt, h, h']

/-! ### Sorted-distinct list construction -/

theorem mem_insortD (a b : Item) : ∀ (l : List Item), a ∈ insortD b l ↔ a = b ∨ a ∈ l
  | [] => by simp [insortD]
  | c :: cs => by
    simp only [insortD]
    by_cases h₁ : b < c
    · simp [h₁]
    · by_cases h₂ : b = c
      · rw [if_neg h₁, if_pos h₂]
        subst h₂
        simp only [List.mem_cons]
        tauto
      · rw [if_neg h₁, if_neg h₂]
        simp only [List.mem_cons, mem_insortD a b cs]
        tauto

theorem sorted_insortD (b : Item) : ∀ {l : List Item},
    l.Sorted (· < ·) → (insortD b l).Sorted (· < ·)
  | [], _ => by simp [insortD]
  | c :: cs, h => by
    simp only [insortD]
    rcases List.sorted_cons.mp h with ⟨hc, hcs⟩
    by_cases h₁ : b < c
    · rw [if_pos h₁]
      refine List.sorted_cons.mpr ⟨?_, h⟩
      intro x hx
      rcases List.mem_cons.mp hx with rfl | hx
      · exact h₁
      · exact lt_trans h₁ (hc x hx)
    · by_cases h₂ : b = c
      · rw [if_neg h₁, if_pos h₂]
        exact h
      · have hcb : c < b := by
          rcases lt_trichotomy b c with h' | h' | h'
          · exact absurd h' h₁
          · exact absurd h' h₂
          · exact h'
        simp only [if_neg h₁, if_neg h₂]
        refine List.sorted_cons.mpr ⟨?_, sorted_insortD b hcs⟩
        intro x hx
        rcases (mem_insortD x b cs).mp hx with rfl | hx
        · exact hcb
        · exact hc x hx

theorem sorted_distinctSorted (l : List Item) : (distinctSorted l).Sorted (· < ·) := by
  induction l with
  | nil => simp [distinctSorted]
  | cons a as ih =>
    show (insortD a (distinctSorted as)).Sorted (· < ·)
    exact sorted_insortD a ih

theorem mem_distinctSorted (a : Item) : ∀ (l : List Item), a ∈ distinctSorted l ↔ a ∈ l
  | [] => by simp [distinctSorted]
  | b :: bs => by
    show a ∈ insortD b (distinctSorted bs) ↔ _
    rw [mem_insortD, mem_distinctSorted a bs]
    simp

theorem nodup_distinctSorted (l : List Item) : (distinctSorted l).Nodup :=
  (sorted_distinctSorted l).nodup

theorem sorted_eq_of_mem_iff {l₁ l₂ : List Item} (h₁ : l₁.Sorted (· < ·))
    (h₂ : l₂.Sorted (· < ·)) (h : ∀ a, a ∈ l₁ ↔ a ∈ l₂) : l₁ = l₂ := by
  apply List.eq_of_perm_of_sorted _ h₁ h₂
  apply List.perm_of_nodup_nodup_toFinset_eq h₁.nodup h₂.nodup
  ext a
  simp [List.mem_toFinset, h a]

/-! ### The pairwise union of the join step -/

theorem mem_sortedUnion {a : Item} {x y : ItemSet} :
    a ∈ sortedUnion x y ↔ a ∈ x ∨ a ∈ y := by
  show a ∈ distinctSorted (x ++ y) ↔ _
  rw [mem_distinctSorted]
  simp

theorem sortedUnion_concat {p : List Item} {a b : Int}
    (hpa : (p ++ [a]).Sorted (· < ·)) (hpb : (p ++ [b]).Sorted (· < ·)) (hab : a < b) :
    sortedUnion (p ++ [a]) (p ++ [b]) = p ++ [a, b] := by
  have hsorted : (p ++ [a, b]).Sorted (· < ·) := by
    rw [List.Sorted, List.pairwise_append]
    refine ⟨(List.pairwise_append.mp hpa).1, List.pairwise_pair.mpr hab, ?_⟩
    intro x hx c hc
    rcases List.mem_cons.mp hc with rfl | hc
    · exact (List.pairwise_append.mp hpa).2.2 x hx c (by simp)
    · have hcb : c = b := by simpa using hc
      subst hcb
      exact (List.pairwise_append.mp hpb).2.2 x hx c (by simp)
  apply sorted_eq_of_mem_iff (sorted_distinctSorted _) hsorted
  intro c
  rw [mem_distinctSorted]
  simp only [List.mem_append, List.mem_cons, List.mem_singleton, List.not_mem_nil, or_false]
  tauto

theorem join_shape {x y : ItemSet} {m : Nat} (hx : x.Sorted (· < ·)) (hy : y.Sorted (· < ·))
    (hlx : x.length = m + 1) (hly : y.length = m + 1)
    (hd : x.dropLast = y.dropLast) (hlt : listLt x y = true) :
    ∃ p a b, x = p ++ [a] ∧ y = p ++ [b] ∧ a < b ∧ sortedUnion x y = p ++ [a, b] := by
  have hxne : x ≠ [] := by intro h; rw [h] at hlx; simp at hlx
  have hyne : y ≠ [] := by intro h; rw [h] at hly; simp at hly
  have hxdec : x = x.dropLast ++ [x.getLast hxne] := (List.dropLast_append_getLast hxne).symm
  have hydec : y = x.dropLast ++ [y.getLast hyne] := by
    rw [hd]; exact (List.dropLast_append_getLast hyne).symm
  have hab : x.getLast hxne < y.getLast hyne := by
    rw [hxdec, hydec, listLt_append_same, listLt_singleton] at hlt
    exact hlt
  refine ⟨x.dropLast, x.getLast hxne, y.getLast hyne, hxdec, hydec, hab, ?_⟩
  calc sortedUnion x y
      = sortedUnion (x.dropLast ++ [x.getLast hxne]) (x.dropLast ++ [y.getLast hyne]) := by
        rw [← hxdec, ← hydec]
    _ = x.dropLast ++ [x.getLast hxne, y.getLast hyne] := by
        apply sortedUnion_concat _ _ hab
        · rw [← hxdec]; exact hx
        · rw [← hydec]; exact hy

/-! ### Membership characterizations of the pipeline stages -/

theorem mem_joinPairs {S : ItemSet} {f : List ItemSet} :
    S ∈ joinPairs f ↔ ∃ x ∈ f, ∃ y ∈ f,
      listLt x y = true ∧ x.dropLast = y.dropLast ∧ S = sortedUnion x y := by
  simp only [joinPairs, List.mem_flatMap, List.mem_filterMap]
  constructor
  · rintro ⟨x, hx, y, hy, hsome⟩
    by_cases hcond : listLt x y = true ∧ x.dropLast = y.dropLast
    · rw [if_pos hcond] at hsome
      exact ⟨x, hx, y, hy, hcond.1, hcond.2, (Option.some.inj hsome).symm⟩
    · rw [if_neg hcond] at hsome
      exact absurd hsome (by simp)
  · rintro ⟨x, hx, y, hy, h₁, h₂, rfl⟩
    exact ⟨x, hx, y, hy, by rw [if_pos ⟨h₁, h₂⟩]⟩

theorem all_contains_iff {S : ItemSet} {t : List Item} :
    S.all (fun a => t.contains a) = true ↔ S ⊆ t := by
  simp only [List.all_eq_true, List.contains, List.elem_iff]
  constructor
  · intro h a ha
    exact h a ha
  · intro h a ha
    exact h ha

theorem supersetCount_cons {S : ItemSet} {t : List Item} {ts : List (List Item)} :
    supersetCount S (t :: ts) = supersetCount S ts + (if S ⊆ t then 1 else 0) := by
  simp only [supersetCount, List.countP_cons]
  congr 1
  by_cases h : S ⊆ t
  · rw [if_pos h, if_pos (all_contains_iff.mpr h)]
  · rw [if_neg h, if_neg (fun hc => h (all_contains_iff.mp hc))]

theorem mem_narrow {freq : List (ItemSet × Nat)} {l : List ItemSet} {x : ItemSet} :
    x ∈ narrow freq l ↔ x ∈ l ∧ x ∈ keysOf freq := by
  simp [narrow, List.mem_filter, List.contains, List.elem_iff]

theorem mem_prune {sigma : Int} {tbl : List (ItemSet × Nat)} {p : ItemSet × Nat} :
    p ∈ prune sigma tbl ↔ p ∈ tbl ∧ sigma ≤ (p.2 : Int) := by
  simp [prune, List.mem_filter]

theorem mem_buildTable {cands : List (List ItemSet)} {p : ItemSet × Nat} :
    p ∈ buildTable cands ↔ p.1 ∈ cands.flatten ∧ p.2 = cands.flatten.count p.1 := by
  rcases p with ⟨S, c⟩
  simp only [buildTable, List.mem_map]
  constructor
  · rintro ⟨S₀, hS₀, hEq⟩
    rcases Prod.mk.injEq .. ▸ hEq with ⟨h₁, h₂⟩
    subst h₁
    exact ⟨List.mem_dedup.mp hS₀, h₂.symm⟩
  · rintro ⟨h₁, h₂⟩
    exact ⟨S, List.mem_dedup.mpr h₁, by rw [h₂]⟩

theorem keysOf_buildTable (cands : List (List ItemSet)) :
    keysOf (buildTable cands) = cands.flatten.dedup := by
  simp only [keysOf, buildTable, List.map_map]
  rw [show (Prod.fst ∘ fun S => (S, List.count S cands.flatten)) = id from rfl, List.map_id]

theorem nodup_keys_prune (sigma : Int) (cands : List (List ItemSet)) :
    (keysOf (prune sigma (buildTable cands))).Nodup := by
  have h₁ : (prune sigma (buildTable cands)).Sublist (buildTable cands) :=
    List.filter_sublist _
  have h₂ : (keysOf (prune sigma (buildTable cands))).Sublist (keysOf (buildTable cands)) :=
    h₁.map Prod.fst
  apply List.Nodup.sublist h₂
  rw [keysOf_buildTable]
  exact List.nodup_dedup _

/-! ### Shape and injectivity of the join -/

theorem joinPairs_elem_props {f : List ItemSet} {m : Nat}
    (hf : ∀ x ∈ f, x.Sorted (· < ·) ∧ x.length = m + 1) :
    ∀ S ∈ joinPairs f, S.Sorted (· < ·) ∧ S.length = m + 2 := by
  intro S hS
  obtain ⟨x, hx, y, hy, h₁, h₂, rfl⟩ := mem_joinPairs.mp hS
  obtain ⟨hxs, hxl⟩ := hf x hx
  obtain ⟨hys, hyl⟩ := hf y hy
  obtain ⟨p, a, b, hxe, hye, hab, hu⟩ := join_shape hxs hys hxl hyl h₂ h₁
  refine ⟨sorted_distinctSorted _, ?_⟩
  rw [hu]
  have hp : p.length + 1 = m + 1 := by
    rw [hxe] at hxl
    simpa using hxl
  simp only [List.length_append, List.length_cons, List.length_nil]
  omega

theorem sortedUnion_subset_iff {x y : ItemSet} {t : List Item} :
    sortedUnion x y ⊆ t ↔ x ⊆ t ∧ y ⊆ t := by
  constructor
  · intro h
    exact ⟨fun a ha => h (mem_sortedUnion.mpr (Or.inl ha)),
           fun a ha => h (mem_sortedUnion.mpr (Or.inr ha))⟩
  · rintro ⟨h₁, h₂⟩ a ha
    rcases mem_sortedUnion.mp ha with h | h
    · exact h₁ h
    · exact h₂ h

theorem join_inj_right {x y y' : ItemSet} {m : Nat}
    (hx : x.Sorted (· < ·)) (hxl : x.length = m + 1)
    (hy : y.Sorted (· < ·)) (hyl : y.length = m + 1)
    (hy' : y'.Sorted (· < ·)) (hyl' : y'.length = m + 1)
    (h1 : listLt x y = true) (h2 : x.dropLast = y.dropLast)
    (h1' : listLt x y' = true) (h2' : x.dropLast = y'.dropLast)
    (hSS : sortedUnion x y = sortedUnion x y') : y = y' := by
  obtain ⟨p, a, b, hxe, hye, hab, hu⟩ := join_shape hx hy hxl hyl h2 h1
  obtain ⟨p', a', b', hxe', hye', hab', hu'⟩ := join_shape hx hy' hxl hyl' h2' h1'
  obtain ⟨rfl, haa⟩ := List.append_inj' (hxe.symm.trans hxe') rfl
  have haa' : a = a' := by simpa using haa
  subst haa'
  have hpab : p ++ [a, b] = p ++ [a, b'] := by rw [← hu, ← hu', hSS]
  have hbb : b = b' := by simpa using (List.append_inj' hpab rfl).2
  rw [hye, hye', hbb]

theorem join_dropLast {x y S : ItemSet} {m : Nat}
    (hx : x.Sorted (· < ·)) (hxl : x.length = m + 1)
    (hy : y.Sorted (· < ·)) (hyl : y.length = m + 1)
    (h1 : listLt x y = true) (h2 : x.dropLast = y.dropLast)
    (hS : S = sortedUnion x y) : S.dropLast = x := by
  obtain ⟨p, a, b, hxe, hye, hab, hu⟩ := join_shape hx hy hxl hyl h2 h1
  rw [hS, hu, hxe]
  rw [show p ++ [a, b] = (p ++ [a]) ++ [b] by simp]
  exact List.dropLast_concat

theorem nodup_filterMap_of_mem {α β : Type} {f : α → Option β} {l : List α} (hl : l.Nodup)
    (h : ∀ a ∈ l, ∀ a' ∈ l, ∀ b, f a = some b → f a' = some b → a = a') :
    (l.filterMap f).Nodup := by
  induction l with
  | nil => simp
  | cons a as ih =>
    rw [List.filterMap_cons]
    rcases List.nodup_cons.mp hl with ⟨hna, hnas⟩
    have ih' : (as.filterMap f).Nodup :=
      ih hnas (fun a₁ h₁ a₂ h₂ => h a₁ (List.mem_cons_of_mem a h₁) a₂ (List.mem_cons_of_mem a h₂))
    rcases hfa : f a with _ | b
    · exact ih'
    · refine List.nodup_cons.mpr ⟨?_, ih'⟩
      intro hbmem
      obtain ⟨a', ha', hfa'⟩ := List.mem_filterMap.mp hbmem
      have : a = a' := h a (List.mem_cons_self a as) a' (List.mem_cons_of_mem a ha') b hfa hfa'
      exact hna (this ▸ ha')

theorem nodup_joinPairs {f : List ItemSet} {m : Nat} (hf : f.Nodup)
    (hmem : ∀ x ∈ f, x.Sorted (· < ·) ∧ x.length = m + 1) :
    (joinPairs f).Nodup := by
  rw [joinPairs, List.nodup_flatMap]
  constructor
  · intro x hx
    apply nodup_filterMap_of_mem hf
    intro y hy y' hy' S hS hS'
    by_cases hc : listLt x y = true ∧ x.dropLast = y.dropLast
    · rw [if_pos hc] at hS
      by_cases hc' : listLt x y' = true ∧ x.dropLast = y'.dropLast
      · rw [if_pos hc'] at hS'
        have h₁ : sortedUnion x y = S := Option.some.inj hS
        have h₂ : sortedUnion x y' = S := Option.some.inj hS'
        exact join_inj_right (hmem x hx).1 (hmem x hx).2 (hmem y hy).1 (hmem y hy).2
          (hmem y' hy').1 (hmem y' hy').2 hc.1 hc.2 hc'.1 hc'.2 (h₁.trans h₂.symm)
      · rw [if_neg hc'] at hS'
        exact absurd hS' (by simp)
    · rw [if_neg hc] at hS
      exact absurd hS (by simp)
  · have hf' : List.Pairwise (· ≠ ·) f := hf
    apply List.Pairwise.imp_of_mem _ hf'
    intro x x' hx hx' hne S hSx hSx'
    obtain ⟨y, hy, hsome⟩ := List.mem_filterMap.mp hSx
    obtain ⟨y', hy', hsome'⟩ := List.mem_filterMap.mp hSx'
    by_cases hc : listLt x y = true ∧ x.dropLast = y.dropLast
    · by_cases hc' : listLt x' y' = true ∧ x'.dropLast = y'.dropLast
      · rw [if_pos hc] at hsome
        rw [if_pos hc'] at hsome'
        have e₁ : S = sortedUnion x y := (Option.some.inj hsome).symm
        have e₂ : S = sortedUnion x' y' := (Option.some.inj hsome').symm
        have d₁ : S.dropLast = x := join_dropLast (hmem x hx).1 (hmem x hx).2
          (hmem y hy).1 (hmem y hy).2 hc.1 hc.2 e₁
        have d₂ : S.dropLast = x' := join_dropLast (hmem x' hx').1 (hmem x' hx').2
          (hmem y' hy').1 (hmem y' hy').2 hc'.1 hc'.2 e₂
        exact hne (d₁.symm.trans d₂)
      · rw [if_neg hc'] at hsome'
        exact Option.noConfusion hsome'
    · rw [if_neg hc] at hsome
      exact Option.noConfusion hsome

/-! ### The level invariant and count correctness -/

/-- Every item-set in the pool `A` of sets generated at the current level
is strictly sorted and has the level's size `m`. -/
def GoodAll (m : Nat) (A : List ItemSet) : Prop :=
  ∀ S ∈ A, S.Sorted (· < ·) ∧ S.length = m

/-- One transaction's stored candidate list `l`, related to the
transaction's item list `t` and the pool `A` of all item-sets generated at
the current level: `l` is duplicate-free, every member of `l` is a subset
of `t`, and `l` holds every pool member that is a subset of `t`. -/
def TxInv (A : List ItemSet) (t : List Item) (l : List ItemSet) : Prop :=
  l.Nodup ∧ (∀ S ∈ l, S ⊆ t) ∧ (∀ S ∈ A, S ⊆ t → S ∈ l)

theorem forall₂_imp_of_mem {α β : Type} {R Q : α → β → Prop} :
    ∀ {l₁ : List α} {l₂ : List β}, List.Forall₂ R l₁ l₂ →
      (∀ a b, a ∈ l₁ → b ∈ l₂ → R a b → Q a b) → List.Forall₂ Q l₁ l₂ := by
  intro l₁ l₂ h
  induction h with
  | nil => exact fun _ => List.Forall₂.nil
  | @cons a b as bs hab htail ih =>
    intro himp
    exact List.Forall₂.cons (himp a b (List.mem_cons_self a as) (List.mem_cons_self b bs) hab)
      (ih fun x y hx hy hxy => himp x y (List.mem_cons_of_mem a hx) (List.mem_cons_of_mem b hy) hxy)

theorem forall₂_mem_right {α β : Type} {R : α → β → Prop} :
    ∀ {l₁ : List α} {l₂ : List β}, List.Forall₂ R l₁ l₂ →
      ∀ b ∈ l₂, ∃ a ∈ l₁, R a b := by
  intro l₁ l₂ h
  induction h with
  | nil => intro b hb; exact absurd hb (List.not_mem_nil b)
  | @cons a b as bs hab htail ih =>
    intro c hc
    rcases List.mem_cons.mp hc with rfl | hc
    · exact ⟨a, List.mem_cons_self a as, hab⟩
    · obtain ⟨a', ha', hR⟩ := ih c hc
      exact ⟨a', List.mem_cons_of_mem a ha', hR⟩

/-- The level invariant is preserved by the per-level update, for any
narrowing table `freq` whatsoever. -/
theorem inv_step {ts : List (List Item)} {cands : List (List ItemSet)}
    (freq : List (ItemSet × Nat)) {m : Nat}
    (hA : GoodAll (m + 1) cands.flatten)
    (hinv : List.Forall₂ (TxInv cands.flatten) ts cands) :
    GoodAll (m + 2) (stepCands freq cands).flatten ∧
      List.Forall₂ (TxInv (stepCands freq cands).flatten) ts (stepCands freq cands) := by
  have hflat' : ∀ S ∈ (stepCands freq cands).flatten, ∃ l ∈ cands, S ∈ joinPairs (narrow freq l) := by
    intro S hS
    obtain ⟨L, hL, hSL⟩ := List.mem_flatten.mp hS
    obtain ⟨l, hl, rfl⟩ := List.mem_map.mp hL
    exact ⟨l, hl, hSL⟩
  have hnarrow_good : ∀ l ∈ cands, ∀ x ∈ narrow freq l,
      x.Sorted (· < ·) ∧ x.length = m + 1 := by
    intro l hl x hx
    exact hA x (List.mem_flatten.mpr ⟨l, hl, (mem_narrow.mp hx).1⟩)
  have hGood' : GoodAll (m + 2) (stepCands freq cands).flatten := by
    intro S hS
    obtain ⟨l, hl, hSf⟩ := hflat' S hS
    exact joinPairs_elem_props (hnarrow_good l hl) S hSf
  refine ⟨hGood', ?_⟩
  rw [stepCands, List.forall₂_map_right_iff]
  apply forall₂_imp_of_mem hinv
  intro t l ht hl htl
  obtain ⟨hnd, hsub, hglob⟩ := htl
  refine ⟨?_, ?_, ?_⟩
  · exact nodup_joinPairs (hnd.filter _) (hnarrow_good l hl)
  · intro S hS
    obtain ⟨x, hx, y, hy, h₁, h₂, rfl⟩ := mem_joinPairs.mp hS
    exact sortedUnion_subset_iff.mpr ⟨hsub x (mem_narrow.mp hx).1, hsub y (mem_narrow.mp hy).1⟩
  · intro S hSA' hSt
    obtain ⟨l', hl', hSf⟩ := hflat' S hSA'
    obtain ⟨x, hx, y, hy, h₁, h₂, rfl⟩ := mem_joinPairs.mp hSf
    obtain ⟨hxl', hxk⟩ := mem_narrow.mp hx
    obtain ⟨hyl', hyk⟩ := mem_narrow.mp hy
    have hsubxy := sortedUnion_subset_iff.mp hSt
    have hxl : x ∈ l := hglob x (List.mem_flatten.mpr ⟨l', hl', hxl'⟩) hsubxy.1
    have hyl : y ∈ l := hglob y (List.mem_flatten.mpr ⟨l', hl', hyl'⟩) hsubxy.2
    exact mem_joinPairs.mpr
      ⟨x, mem_narrow.mpr ⟨hxl, hxk⟩, y, mem_narrow.mpr ⟨hyl, hyk⟩, h₁, h₂, rfl⟩

theorem retainedTx_mem {cfg : Config} {input : List (List Int)} {t : List Item}
    (ht : t ∈ retainedTx cfg input) :
    t.Sorted (· < ·) ∧ cfg.minSize ≤ (t.length : Int) ∧ ∃ raw ∈ input, t = txItems raw := by
  simp only [retainedTx, List.mem_filter, List.mem_map] at ht
  obtain ⟨⟨raw, hraw, rfl⟩, hlen⟩ := ht
  exact ⟨sorted_distinctSorted raw, by simpa using hlen, raw, hraw, rfl⟩

theorem goodAll_initial {cfg : Config} {input : List (List Int)} :
    GoodAll 1 (initialCands cfg input).flatten := by
  intro S hS
  obtain ⟨L, hL, hSL⟩ := List.mem_flatten.mp hS
  obtain ⟨t, ht, rfl⟩ := List.mem_map.mp hL
  obtain ⟨a, ha, rfl⟩ := List.mem_map.mp hSL
  exact ⟨List.sorted_singleton a, rfl⟩

theorem txInv_initial {cfg : Config} {input : List (List Int)} :
    List.Forall₂ (TxInv (initialCands cfg input).flatten) (retainedTx cfg input)
      (initialCands cfg input) := by
  rw [initialCands, List.forall₂_map_right_iff]
  apply List.forall₂_same.mpr
  intro t ht
  have hts : t.Sorted (· < ·) := (retainedTx_mem ht).1
  refine ⟨?_, ?_, ?_⟩
  · exact hts.nodup.map (fun a b h => by simpa using h)
  · intro S hS
    obtain ⟨a, ha, rfl⟩ := List.mem_map.mp hS
    intro b hb
    rcases List.mem_singleton.mp hb with rfl
    exact ha
  · intro S hSA hSt
    obtain ⟨L, hL, hSL⟩ := List.mem_flatten.mp hSA
    obtain ⟨t', ht', rfl⟩ := List.mem_map.mp hL
    obtain ⟨a, ha, rfl⟩ := List.mem_map.mp hSL
    exact List.mem_map.mpr ⟨a, hSt (List.mem_singleton_self a), rfl⟩

theorem count_one_of_nodup_mem {α : Type} [BEq α] [LawfulBEq α] {l : List α} {a : α}
    (hnd : l.Nodup) (ha : a ∈ l) : l.count a = 1 := by
  induction l with
  | nil => exact absurd ha (List.not_mem_nil a)
  | cons b bs ih =>
    rcases List.nodup_cons.mp hnd with ⟨hb, hbs⟩
    rcases List.mem_cons.mp ha with rfl | ha
    · rw [List.count_cons_self, List.count_eq_zero_of_not_mem hb]
    · rw [List.count_cons_of_ne, ih hbs ha]
      intro hab
      exact hb (hab ▸ ha)

theorem count_flatten_eq_supersetCount {A : List ItemSet} {S : ItemSet}
    {ts : List (List Item)} {cands : List (List ItemSet)}
    (h : List.Forall₂ (TxInv A) ts cands) (hSA : S ∈ A) :
    cands.flatten.count S = supersetCount S ts := by
  induction h with
  | nil => simp [supersetCount]
  | @cons t l ts' cands' htl htail ih =>
    rw [List.flatten_cons, List.count_append, supersetCount_cons, ih]
    by_cases hsub : S ⊆ t
    · rw [if_pos hsub, count_one_of_nodup_mem htl.1 (htl.2.2 S hSA hsub)]
      omega
    · rw [if_neg hsub, List.count_eq_zero_of_not_mem (fun hmem => hsub (htl.2.1 S hmem))]
      omega

theorem buildTable_entry_correct {ts : List (List Item)} {cands : List (List ItemSet)}
    (hinv : List.Forall₂ (TxInv cands.flatten) ts cands)
    {p : ItemSet × Nat} (hp : p ∈ buildTable cands) : p.2 = supersetCount p.1 ts := by
  obtain ⟨hmem, hcnt⟩ := mem_buildTable.mp hp
  rw [hcnt, count_flatten_eq_supersetCount hinv hmem]

theorem mem_emitLevel {cfg : Config} {k : Nat} {freq : List (ItemSet × Nat)} {r : OutRecord} :
    r ∈ emitLevel cfg k freq ↔
      cfg.minSize ≤ (k : Int) ∧ ∃ p ∈ freq, r = (k, p.2, p.1) := by
  rw [emitLevel]
  by_cases h : cfg.minSize ≤ (k : Int)
  · rw [if_pos h]
    simp only [List.mem_map, List.mem_insertionSort]
    constructor
    · rintro ⟨p, hp, rfl⟩
      exact ⟨h, p, hp, rfl⟩
    · rintro ⟨_, p, hp, rfl⟩
      exact ⟨p, hp, rfl⟩
  · rw [if_neg h]
    simp [h]

theorem length_le_of_nodup_subset {S t : List Int} (hnd : S.Nodup) (hsub : S ⊆ t) :
    S.length ≤ t.length := by
  have h₂ : S.toFinset ⊆ t.toFinset := by
    intro a ha
    rw [List.mem_toFinset] at ha ⊢
    exact hsub ha
  calc S.length = S.toFinset.card := (List.toFinset_card_of_nodup hnd).symm
    _ ≤ t.toFinset.card := Finset.card_le_card h₂
    _ ≤ t.length := List.toFinset_card_le t

/-- Every record produced by the loop, entered at level `k` with the level
invariant holding, is gated by `min_itemset_size`, pruned by `sigma`, and
carries the exact number of retained transactions containing its item-set. -/
theorem minerLoop_records {cfg : Config} (ts : List (List Item)) :
    ∀ (fuel k : Nat) (cands : List (List ItemSet)) (freqPrev : List (ItemSet × Nat)),
      2 ≤ k →
      GoodAll (k - 1) cands.flatten →
      List.Forall₂ (TxInv cands.flatten) ts cands →
      ∀ r ∈ (minerLoop cfg k cands freqPrev fuel).1,
        cfg.minSize ≤ (r.1 : Int) ∧ k ≤ r.1 ∧ cfg.sigma ≤ (r.2.1 : Int) ∧
          r.2.2.Sorted (· < ·) ∧ r.2.2.length = r.1 ∧ r.2.1 = supersetCount r.2.2 ts
  | 0, k, cands, freqPrev, _, _, _ => by
    intro r hr
    simp [minerLoop] at hr
  | fuel + 1, k, cands, freqPrev, hk, hGood, hinv => by
    intro r hr
    obtain ⟨m, rfl⟩ : ∃ m, k = m + 2 := ⟨k - 2, by omega⟩
    have hGood₁ : GoodAll (m + 1) cands.flatten := hGood
    simp only [minerLoop] at hr
    by_cases hg : m + 2 ≤ freqPrev.length
    · rw [if_pos hg] at hr
      obtain ⟨hGood', hinv'⟩ := inv_step freqPrev hGood₁ hinv
      rcases List.mem_append.mp hr with hre | hrr
      · obtain ⟨hmin, p, hp, rfl⟩ := mem_emitLevel.mp hre
        obtain ⟨hpt, hsig⟩ := mem_prune.mp hp
        have hcnt : p.2 = supersetCount p.1 ts := buildTable_entry_correct hinv' hpt
        have hpflat : p.1 ∈ (stepCands freqPrev cands).flatten := (mem_buildTable.mp hpt).1
        obtain ⟨hsort, hlen⟩ := hGood' p.1 hpflat
        exact ⟨hmin, le_refl _, hsig, hsort, hlen, hcnt⟩
      · have := minerLoop_records ts fuel (m + 3) (stepCands freqPrev cands)
          (prune cfg.sigma (buildTable (stepCands freqPrev cands))) (by omega) hGood' hinv' r hrr
        exact ⟨this.1, by omega, this.2.2.1, this.2.2.2.1, this.2.2.2.2.1, this.2.2.2.2.2⟩
    · rw [if_neg hg] at hr
      simp at hr

/-- All records of a full run: gate, threshold, sortedness, size = level,
and count = number of retained transactions whose item list contains the
record's item-set. -/
theorem apriori_records {cfg : Config} {input : List (List Int)} :
    ∀ r ∈ apriori cfg input,
      cfg.minSize ≤ (r.1 : Int) ∧ 2 ≤ r.1 ∧ cfg.sigma ≤ (r.2.1 : Int) ∧
        r.2.2.Sorted (· < ·) ∧ r.2.2.length = r.1 ∧
        r.2.1 = supersetCount r.2.2 (retainedTx cfg input) := by
  intro r hr
  exact minerLoop_records (retainedTx cfg input) (fuelBound input) 2
    (initialCands cfg input) (freq1 cfg input) (le_refl 2) goodAll_initial txInv_initial r hr

/-- Transactions discarded at load time are too short to contain any
emitted item-set, so the retained-transaction support count agrees with
the all-transactions support count. -/
theorem supersetCount_retained_eq {cfg : Config} {input : List (List Int)} {S : ItemSet}
    (hnd : S.Nodup) (hlen : cfg.minSize ≤ (S.length : Int)) :
    supersetCount S (retainedTx cfg input) = supersetCount S (input.map txItems) := by
  rw [retainedTx, supersetCount, supersetCount, List.countP_filter]
  apply List.countP_congr
  intro t _
  constructor
  · intro h
    rw [Bool.and_eq_true] at h
    exact h.1
  · intro h
    rw [Bool.and_eq_true]
    refine ⟨h, ?_⟩
    have hsub : S ⊆ t := all_contains_iff.mp h
    have : S.length ≤ t.length := length_le_of_nodup_subset hnd hsub
    simp only [decide_eq_true_eq]
    omega

/-! ### Termination of the level loop -/

theorem minerLoop_guard_false {cfg : Config} {k : Nat} {cands : List (List ItemSet)}
    {freqPrev : List (ItemSet × Nat)} (hg : ¬ k ≤ freqPrev.length) :
    ∀ fuel, minerLoop cfg k cands freqPrev fuel = ([], []) := by
  intro fuel
  cases fuel with
  | zero => rfl
  | succ fuel =>
    simp only [minerLoop]
    rw [if_neg hg]

theorem mem_le_foldr_max {l : List Nat} {a : Nat} (h : a ∈ l) (n : Nat) :
    a ≤ l.foldr max n := by
  induction l with
  | nil => exact absurd h (List.not_mem_nil a)
  | cons b bs ih =>
    rcases List.mem_cons.mp h with rfl | h
    · exact le_max_left _ _
    · exact le_trans (ih h) (le_max_right _ _)

/-- If the loop guard holds at level `k`, some frequent set of size `k − 1`
fits inside some retained transaction, so `k` is at most one more than the
longest transaction. -/
theorem guard_le_bound {cfg : Config} {ts : List (List Item)} {N : Nat} {k : Nat}
    {cands : List (List ItemSet)}
    (hts : ∀ t ∈ ts, t.length ≤ N) (hk : 2 ≤ k)
    (hGood : GoodAll (k - 1) cands.flatten)
    (hinv : List.Forall₂ (TxInv cands.flatten) ts cands)
    (hg : k ≤ (prune cfg.sigma (buildTable cands)).length) : k ≤ N + 1 := by
  have hpos : 0 < (prune cfg.sigma (buildTable cands)).length := by omega
  obtain ⟨p, hp⟩ := List.exists_mem_of_length_pos hpos
  have hpt : p ∈ buildTable cands := (mem_prune.mp hp).1
  have hflat : p.1 ∈ cands.flatten := (mem_buildTable.mp hpt).1
  obtain ⟨l, hl, hpl⟩ := List.mem_flatten.mp hflat
  obtain ⟨t, ht, htx⟩ := forall₂_mem_right hinv l hl
  have hsub : p.1 ⊆ t := htx.2.1 p.1 hpl
  obtain ⟨hsort, hlen⟩ := hGood p.1 hflat
  have h₁ := length_le_of_nodup_subset hsort.nodup hsub
  have h₂ := hts t ht
  omega

/-- Once the fuel is at least `N + 2 - k` (with `N` bounding all retained
transaction lengths), the loop's value no longer depends on the fuel: the
Python `while` loop terminates. -/
theorem minerLoop_stable (cfg : Config) {ts : List (List Item)} {N : Nat}
    (hts : ∀ t ∈ ts, t.length ≤ N) :
    ∀ (fuel fuel' k : Nat) (cands : List (List ItemSet)),
      2 ≤ k →
      GoodAll (k - 1) cands.flatten →
      List.Forall₂ (TxInv cands.flatten) ts cands →
      N + 2 - k ≤ fuel → N + 2 - k ≤ fuel' →
      minerLoop cfg k cands (prune cfg.sigma (buildTable cands)) fuel =
        minerLoop cfg k cands (prune cfg.sigma (buildTable cands)) fuel' := by
  intro fuel
  induction fuel with
  | zero =>
    intro fuel' k cands hk hGood hinv hf hf'
    have hg : ¬ k ≤ (prune cfg.sigma (buildTable cands)).length := by
      intro hg
      have := guard_le_bound hts hk hGood hinv hg
      omega
    rw [minerLoop_guard_false hg, minerLoop_guard_false hg]
  | succ fuel ih =>
    intro fuel' k cands hk hGood hinv hf hf'
    by_cases hg : k ≤ (prune cfg.sigma (buildTable cands)).length
    · have hkN : k ≤ N + 1 := guard_le_bound hts hk hGood hinv hg
      cases fuel' with
      | zero => omega
      | succ fuel' =>
        simp only [minerLoop]
        rw [if_pos hg, if_pos hg]
        obtain ⟨m, rfl⟩ : ∃ m, k = m + 2 := ⟨k - 2, by omega⟩
        have hGood₁ : GoodAll (m + 1) cands.flatten := hGood
        obtain ⟨hGood', hinv'⟩ :=
          inv_step (prune cfg.sigma (buildTable cands)) hGood₁ hinv
        have hrec := ih fuel' (m + 2 + 1) (stepCands (prune cfg.sigma (buildTable cands)) cands)
          (by omega) hGood' hinv' (by omega) (by omega)
        rw [hrec]
    · rw [minerLoop_guard_false hg, minerLoop_guard_false hg]

/-- A bound on the retained transaction lengths for `minerLoop_stable`. -/
theorem retained_length_bound {cfg : Config} {input : List (List Int)} :
    ∀ t ∈ retainedTx cfg input,
      t.length ≤ (input.map (fun raw => (txItems raw).length)).foldr max 0 := by
  intro t ht
  obtain ⟨-, -, raw, hraw, rfl⟩ := retainedTx_mem ht
  have hmem : (txItems raw).length ∈ input.map (fun raw => (txItems raw).length) :=
    List.mem_map.mpr ⟨raw, hraw, rfl⟩
  exact mem_le_foldr_max hmem 0

/-- The whole run is unchanged by any surplus of fuel beyond `fuelBound`. -/
theorem minerRun_fuel_stable {cfg : Config} {input : List (List Int)} {fuel : Nat}
    (hf : fuelBound input ≤ fuel) :
    minerLoop cfg 2 (initialCands cfg input) (freq1 cfg input) fuel =
      minerLoop cfg 2 (initialCands cfg input) (freq1 cfg input) (fuelBound input) := by
  have hfb : fuelBound input =
      (input.map (fun raw => (txItems raw).length)).foldr max 0 + 2 := rfl
  exact minerLoop_stable cfg retained_length_bound fuel (fuelBound input) 2
    (initialCands cfg input) (le_refl 2) goodAll_initial txInv_initial
    (by omega) (by omega)

/-! ### Ordering of one level's emitted records -/

theorem recLE_trans : ∀ a b c : ItemSet × Nat,
    recLE a b = true → recLE b c = true → recLE a c = true := by
  intro a b c hab hbc
  simp only [recLE] at hab hbc ⊢
  by_cases h₁ : a.2 = b.2 <;> by_cases h₂ : b.2 = c.2
  · rw [if_pos h₁] at hab
    rw [if_pos h₂] at hbc
    rw [if_pos (h₁.trans h₂)]
    rw [Bool.not_eq_true'] at hab hbc ⊢
    rcases listLt_total b.1 a.1 with hba | hba | hba
    · rw [← hba]
      exact hbc
    · rw [hba] at hab
      exact absurd hab (by simp)
    · rcases listLt_total c.1 b.1 with hcb | hcb | hcb
      · rw [hcb]
        exact listLt_asymm hba
      · rw [hcb] at hbc
        exact absurd hbc (by simp)
      · exact listLt_asymm (listLt_trans _ _ _ hba hcb)
  · rw [if_pos h₁] at hab
    rw [if_neg h₂] at hbc
    have hcb : c.2 < b.2 := of_decide_eq_true hbc
    rw [if_neg (by omega : ¬ a.2 = c.2)]
    exact decide_eq_true (by omega)
  · rw [if_neg h₁] at hab
    rw [if_pos h₂] at hbc
    have hba : b.2 < a.2 := of_decide_eq_true hab
    rw [if_neg (by omega : ¬ a.2 = c.2)]
    exact decide_eq_true (by omega)
  · rw [if_neg h₁] at hab
    rw [if_neg h₂] at hbc
    have hba : b.2 < a.2 := of_decide_eq_true hab
    have hcb : c.2 < b.2 := of_decide_eq_true hbc
    rw [if_neg (by omega : ¬ a.2 = c.2)]
    exact decide_eq_true (by omega)

theorem recLE_total : ∀ a b : ItemSet × Nat, (recLE a b || recLE b a) = true := by
  intro a b
  simp only [recLE]
  by_cases h : a.2 = b.2
  · rw [if_pos h, if_pos h.symm]
    rw [Bool.or_eq_true, Bool.not_eq_true', Bool.not_eq_true']
    cases hba : listLt b.1 a.1
    · exact Or.inl rfl
    · exact Or.inr (listLt_asymm hba)
  · rw [if_neg h, if_neg (fun h' => h h'.symm)]
    rw [Bool.or_eq_true]
    rcases Nat.lt_or_ge a.2 b.2 with h' | h'
    · exact Or.inr (decide_eq_true h')
    · exact Or.inl (decide_eq_true (by omega))

theorem prune_pairwise_keys {sigma : Int} {cands : List (List ItemSet)} :
    (prune sigma (buildTable cands)).Pairwise (fun p q => p.1 ≠ q.1) := by
  have h := nodup_keys_prune sigma cands
  rw [keysOf] at h
  exact List.pairwise_map.mp h

/-- Within one level, the emitted records are strictly ordered: descending
count, ties broken by ascending lexicographic item-set order. -/
theorem emitLevel_sorted {cfg : Config} {k : Nat} {cands : List (List ItemSet)} :
    (emitLevel cfg k (prune cfg.sigma (buildTable cands))).Pairwise
      (fun r r' : OutRecord =>
        r'.2.1 < r.2.1 ∨ (r.2.1 = r'.2.1 ∧ listLt r.2.2 r'.2.2 = true)) := by
  rw [emitLevel]
  by_cases h : cfg.minSize ≤ (k : Int)
  · rw [if_pos h]
    have htot : IsTotal (ItemSet × Nat) (fun p q => recLE p q = true) :=
      ⟨fun a b => by simpa using recLE_total a b⟩
    have htr : IsTrans (ItemSet × Nat) (fun p q => recLE p q = true) :=
      ⟨recLE_trans⟩
    have hsorted : ((prune cfg.sigma (buildTable cands)).insertionSort
        (fun p q => recLE p q = true)).Pairwise (fun p q => recLE p q = true) :=
      @List.sorted_insertionSort _ _ _ htot htr _
    have hne : ((prune cfg.sigma (buildTable cands)).insertionSort
        (fun p q => recLE p q = true)).Pairwise (fun p q => p.1 ≠ q.1) :=
      (List.Perm.pairwise_iff (fun h' h'' => h' h''.symm)
        (List.perm_insertionSort (fun p q => recLE p q = true)
          (prune cfg.sigma (buildTable cands)))).mpr
        prune_pairwise_keys
    apply List.Pairwise.map _ _ (hsorted.and hne)
    intro p q hpq
    obtain ⟨hle, hnepq⟩ := hpq
    simp only [recLE] at hle
    by_cases hc : p.2 = q.2
    · rw [if_pos hc] at hle
      rw [Bool.not_eq_true'] at hle
      refine Or.inr ⟨hc, ?_⟩
      rcases listLt_total p.1 q.1 with he | hlt | hgt
      · exact absurd he hnepq
      · exact hlt
      · rw [hgt] at hle
        exact absurd hle (by simp)
    · rw [if_neg hc] at hle
      exact Or.inl (of_decide_eq_true hle)
  · rw [if_neg h]
    exact List.Pairwise.nil

/-- Below the configured minimum item-set size, a level emits nothing. -/
theorem emitLevel_gate {cfg : Config} {k : Nat} {freq : List (ItemSet × Nat)}
    (h : ¬ cfg.minSize ≤ (k : Int)) : emitLevel cfg k freq = [] := by
  rw [emitLevel, if_neg h]

/-! ### Remaining supporting lemmas -/

theorem filter_map_eq_filterMap {α β : Type} (p : β → Bool) (f : α → β) (l : List α) :
    (l.map f).filter p = l.filterMap (fun a => if p (f a) then some (f a) else none) := by
  induction l with
  | nil => rfl
  | cons a as ih =>
    simp only [List.map_cons, List.filter_cons, List.filterMap_cons]
    by_cases h : p (f a)
    · rw [if_pos h, if_pos h, ih]
    · rw [if_neg h, if_neg h, ih]

theorem mapM_eq_none_of_mem {α β : Type} (f : α → Option β) :
    ∀ (l : List α) (a : α), a ∈ l → f a = none → l.mapM f = none := by
  intro l
  induction l with
  | nil =>
    intro a ha
    exact absurd ha (List.not_mem_nil a)
  | cons b bs ih =>
    intro a ha hfa
    rw [List.mapM_cons]
    rcases List.mem_cons.mp ha with rfl | ha
    · rw [hfa]
      rfl
    · cases hfb : f b with
      | none => rfl
      | some vb =>
        rw [ih a ha hfa]
        rfl

theorem minerLoop_verbose_indep (mn sg : Int) (v₁ v₂ : Bool) :
    ∀ (fuel k : Nat) (cands : List (List ItemSet)) (freqPrev : List (ItemSet × Nat)),
      (minerLoop ⟨mn, sg, v₁⟩ k cands freqPrev fuel).1 =
        (minerLoop ⟨mn, sg, v₂⟩ k cands freqPrev fuel).1 := by
  intro fuel
  induction fuel with
  | zero =>
    intro k cands freqPrev
    rfl
  | succ fuel ih =>
    intro k cands freqPrev
    simp only [minerLoop]
    by_cases hg : k ≤ freqPrev.length
    · rw [if_pos hg, if_pos hg]
      show emitLevel ⟨mn, sg, v₁⟩ k (prune sg (buildTable (stepCands freqPrev cands))) ++
          (minerLoop ⟨mn, sg, v₁⟩ (k + 1) (stepCands freqPrev cands)
            (prune sg (buildTable (stepCands freqPrev cands))) fuel).1 =
        emitLevel ⟨mn, sg, v₂⟩ k (prune sg (buildTable (stepCands freqPrev cands))) ++
          (minerLoop ⟨mn, sg, v₂⟩ (k + 1) (stepCands freqPrev cands)
            (prune sg (buildTable (stepCands freqPrev cands))) fuel).1
      rw [ih (k + 1) (stepCands freqPrev cands) (prune sg (buildTable (stepCands freqPrev cands)))]
      rw [show (emitLevel ⟨mn, sg, v₁⟩ : Nat → List (ItemSet × Nat) → List OutRecord) =
        emitLevel ⟨mn, sg, v₂⟩ from rfl]
    · rw [if_neg hg, if_neg hg]

/-! ### Claim theorems -/

/-- C1: for every level and every emitted record (item-set `S`, count `c`),
`c` equals exactly the number of input transactions whose set of distinct
items is a superset of `S`, even though the count is accumulated only over
each transaction's recursively narrowed per-transaction candidate view. -/
theorem count_correct (cfg : Config) (input : List (List Int)) (r : OutRecord)
    (hr : r ∈ apriori cfg input) :
    r.2.1 = supersetCount r.2.2 (input.map txItems) := by
  obtain ⟨hmin, hk, hsig, hsort, hlen, hcnt⟩ := apriori_records r hr
  rw [hcnt]
  apply supersetCount_retained_eq hsort.nodup
  rw [hlen]
  exact hmin

theorem count_correct_witness :
    ((2, 3, [1, 2]) : OutRecord) ∈ apriori ⟨2, 2, false⟩ [[1, 2], [1, 2], [1, 2]] ∧
      ((2, 3, [1, 2]) : OutRecord).2.1 =
        supersetCount ((2, 3, [1, 2]) : OutRecord).2.2 ([[1, 2], [1, 2], [1, 2]].map txItems) :=
  ⟨by decide,
    count_correct ⟨2, 2, false⟩ [[1, 2], [1, 2], [1, 2]] (2, 3, [1, 2]) (by decide)⟩

/-- C2: pruning at every level removes exactly the entries whose count is
strictly below sigma (count-equal entries survive), and consequently every
emitted record's count is at least sigma. -/
theorem prune_exact_and_threshold :
    (∀ (sigma : Int) (tbl : List (ItemSet × Nat)) (p : ItemSet × Nat),
        p ∈ prune sigma tbl ↔ p ∈ tbl ∧ sigma ≤ (p.2 : Int)) ∧
      ∀ (cfg : Config) (input : List (List Int)) (r : OutRecord),
        r ∈ apriori cfg input → cfg.sigma ≤ (r.2.1 : Int) := by
  constructor
  · intro sigma tbl p
    exact mem_prune
  · intro cfg input r hr
    exact (apriori_records r hr).2.2.1

theorem prune_exact_and_threshold_witness :
    (([1], 3) ∈ prune 2 [([1], 3), ([2], 1)] ↔
        ([1], 3) ∈ ([([1], 3), ([2], 1)] : List (ItemSet × Nat)) ∧
          (2 : Int) ≤ (((([1], 3) : ItemSet × Nat).2 : Nat) : Int)) ∧
      (⟨2, 2, false⟩ : Config).sigma ≤ ((((2, 3, [1, 2]) : OutRecord).2.1 : Nat) : Int) :=
  ⟨prune_exact_and_threshold.1 2 [([1], 3), ([2], 1)] ([1], 3),
    prune_exact_and_threshold.2 ⟨2, 2, false⟩ [[1, 2], [1, 2], [1, 2]] (2, 3, [1, 2]) (by decide)⟩

/-- C3: within any one level's output, the records are pairwise ordered by
count descending with ties broken by ascending lexicographic item-set
order, and a level's records are emitted only when the level is at least
the configured minimum item-set size. -/
theorem emit_ordered_and_gated :
    (∀ (cfg : Config) (k : Nat) (cands : List (List ItemSet)),
        (emitLevel cfg k (prune cfg.sigma (buildTable cands))).Pairwise
          (fun r r' : OutRecord =>
            r'.2.1 < r.2.1 ∨ (r.2.1 = r'.2.1 ∧ listLt r.2.2 r'.2.2 = true))) ∧
      ∀ (cfg : Config) (k : Nat) (freq : List (ItemSet × Nat)),
        ¬ cfg.minSize ≤ (k : Int) → emitLevel cfg k freq = [] :=
  ⟨fun _ _ _ => emitLevel_sorted, fun _ _ _ h => emitLevel_gate h⟩

theorem emit_ordered_and_gated_witness :
    (emitLevel ⟨2, 2, false⟩ 2 (prune (⟨2, 2, false⟩ : Config).sigma
        (buildTable [[[1], [2]]]))).Pairwise
      (fun r r' : OutRecord =>
        r'.2.1 < r.2.1 ∨ (r.2.1 = r'.2.1 ∧ listLt r.2.2 r'.2.2 = true)) ∧
      emitLevel ⟨3, 2, false⟩ 2 [([1], 5)] = [] :=
  ⟨emit_ordered_and_gated.1 ⟨2, 2, false⟩ 2 [[[1], [2]]],
    emit_ordered_and_gated.2 ⟨3, 2, false⟩ 2 [([1], 5)] (by decide)⟩

/-- C4: the loader retains, in original record order, exactly the
transactions with at least `min_itemset_size` distinct items (each reduced
to its sorted duplicate-free item list), and the accumulated level-1 table
maps every singleton appearing in a retained transaction — and only those
— to the number of retained transactions containing it. -/
theorem loader_retention_and_level1_counts (cfg : Config) (input : List (List Int)) :
    retainedTx cfg input =
        input.filterMap (fun raw =>
          if cfg.minSize ≤ ((txItems raw).length : Int) then some (txItems raw) else none) ∧
      (∀ a : Item, [a] ∈ keysOf (table1 cfg input) ↔ ∃ t ∈ retainedTx cfg input, a ∈ t) ∧
      ∀ p : ItemSet × Nat, p ∈ table1 cfg input →
        (∃ a : Item, p.1 = [a] ∧ ∃ t ∈ retainedTx cfg input, a ∈ t) ∧
          p.2 = supersetCount p.1 (retainedTx cfg input) := by
  have hflat : ∀ S : ItemSet, S ∈ (initialCands cfg input).flatten ↔
      ∃ a : Item, S = [a] ∧ ∃ t ∈ retainedTx cfg input, a ∈ t := by
    intro S
    rw [initialCands]
    constructor
    · intro h
      obtain ⟨L, hL, hmem⟩ := List.mem_flatten.mp h
      obtain ⟨t, ht, rfl⟩ := List.mem_map.mp hL
      obtain ⟨b, hb, rfl⟩ := List.mem_map.mp hmem
      exact ⟨b, rfl, t, ht, hb⟩
    · rintro ⟨a, rfl, t, ht, ha⟩
      exact List.mem_flatten.mpr
        ⟨singletons t, List.mem_map.mpr ⟨t, ht, rfl⟩, List.mem_map.mpr ⟨a, ha, rfl⟩⟩
  refine ⟨?_, ?_, ?_⟩
  · rw [retainedTx, filter_map_eq_filterMap]
    congr 1
    funext raw
    by_cases h : cfg.minSize ≤ ((txItems raw).length : Int)
    · rw [if_pos (decide_eq_true h), if_pos h]
    · rw [if_neg (fun hd => h (of_decide_eq_true hd)), if_neg h]
  · intro a
    rw [table1, keysOf_buildTable, List.mem_dedup, hflat]
    constructor
    · rintro ⟨b, hb, ht⟩
      have : b = a := by simpa using hb.symm
      exact this ▸ ht
    · intro ht
      exact ⟨a, rfl, ht⟩
  · intro p hp
    obtain ⟨hmem, -⟩ := mem_buildTable.mp hp
    refine ⟨(hflat p.1).mp hmem, ?_⟩
    exact buildTable_entry_correct txInv_initial hp

theorem loader_retention_and_level1_counts_witness :
    (retainedTx ⟨2, 2, false⟩ [[1, 2], [3]] =
        [[1, 2], [3]].filterMap (fun raw =>
          if (⟨2, 2, false⟩ : Config).minSize ≤ ((txItems raw).length : Int) then
            some (txItems raw) else none)) ∧
      ([1] ∈ keysOf (table1 ⟨2, 2, false⟩ [[1, 2], [3]]) ↔
        ∃ t ∈ retainedTx ⟨2, 2, false⟩ [[1, 2], [3]], (1 : Int) ∈ t) ∧
      ((∃ a : Item, (([1], 1) : ItemSet × Nat).1 = [a] ∧
          ∃ t ∈ retainedTx ⟨2, 2, false⟩ [[1, 2], [3]], a ∈ t) ∧
        (([1], 1) : ItemSet × Nat).2 =
          supersetCount (([1], 1) : ItemSet × Nat).1 (retainedTx ⟨2, 2, false⟩ [[1, 2], [3]])) :=
  ⟨(loader_retention_and_level1_counts ⟨2, 2, false⟩ [[1, 2], [3]]).1,
    (loader_retention_and_level1_counts ⟨2, 2, false⟩ [[1, 2], [3]]).2.1 1,
    (loader_retention_and_level1_counts ⟨2, 2, false⟩ [[1, 2], [3]]).2.2 ([1], 1) (by decide)⟩

/-- C5: at a level transition each transaction's generated candidates are
exactly the sorted unions of pairs drawn from that transaction's narrowed
list whose members share all items but the last with the first's last item
strictly smaller — the code's pair test is equivalent to that condition —
each such union has exactly one more item, and membership in the candidate
list requires nothing beyond the pair condition. -/
theorem join_candidates_exact (freq : List (ItemSet × Nat)) (l : List ItemSet) (m : Nat)
    (hm : 1 ≤ m)
    (hstruct : ∀ x ∈ narrow freq l, x.Sorted (· < ·) ∧ x.length = m) :
    (∀ S : ItemSet, S ∈ joinPairs (narrow freq l) ↔
        ∃ x ∈ narrow freq l, ∃ y ∈ narrow freq l,
          listLt x y = true ∧ x.dropLast = y.dropLast ∧ S = sortedUnion x y) ∧
      (∀ x ∈ narrow freq l, ∀ y ∈ narrow freq l,
        (listLt x y = true ∧ x.dropLast = y.dropLast) ↔
          (x.dropLast = y.dropLast ∧
            ∃ a b : Item, x.getLast? = some a ∧ y.getLast? = some b ∧ a < b)) ∧
      ∀ S ∈ joinPairs (narrow freq l), S.length = m + 1 := by
  obtain ⟨m₀, rfl⟩ : ∃ m₀, m = m₀ + 1 := ⟨m - 1, by omega⟩
  refine ⟨fun S => mem_joinPairs, ?_, ?_⟩
  · intro x hx y hy
    obtain ⟨hxs, hxl⟩ := hstruct x hx
    obtain ⟨hys, hyl⟩ := hstruct y hy
    constructor
    · rintro ⟨h₁, h₂⟩
      obtain ⟨p, a, b, hxe, hye, hab, -⟩ := join_shape hxs hys hxl hyl h₂ h₁
      refine ⟨h₂, a, b, ?_, ?_, hab⟩
      · rw [hxe]
        exact List.getLast?_concat p
      · rw [hye]
        exact List.getLast?_concat p
    · rintro ⟨h₂, a, b, hga, hgb, hab⟩
      refine ⟨?_, h₂⟩
      have hxne : x ≠ [] := by
        intro h
        rw [h] at hxl
        simp at hxl
      have hyne : y ≠ [] := by
        intro h
        rw [h] at hyl
        simp at hyl
      have hxdec : x = x.dropLast ++ [a] := by
        rw [List.getLast?_eq_getLast x hxne] at hga
        rw [← Option.some.inj hga]
        exact (List.dropLast_append_getLast hxne).symm
      have hydec : y = x.dropLast ++ [b] := by
        rw [List.getLast?_eq_getLast y hyne] at hgb
        rw [h₂, ← Option.some.inj hgb]
        exact (List.dropLast_append_getLast hyne).symm
      calc listLt x y = listLt (x.dropLast ++ [a]) (x.dropLast ++ [b]) := by
            rw [← hxdec, ← hydec]
        _ = listLt [a] [b] := listLt_append_same _ _ _
        _ = true := listLt_singleton.mpr hab
  · intro S hS
    exact (joinPairs_elem_props hstruct S hS).2

theorem join_candidates_exact_witness :
    ([1, 2] : ItemSet).length = 1 + 1 :=
  (join_candidates_exact [([1], 2), ([2], 2)] [[1], [2]] 1 (by decide) (by decide)).2.2
    [1, 2] (by decide)

/-- C6: the level-wise loop terminates — beyond the fuel bound the run's
value is fuel-independent; the body runs at level `k` exactly when the
previous level's survivor count is at least `k` and otherwise the loop
stops with no further output; and with zero retained transactions the body
is never entered and nothing is emitted. -/
theorem miner_terminates (cfg : Config) (input : List (List Int)) :
    (∀ fuel : Nat, fuelBound input ≤ fuel →
        minerLoop cfg 2 (initialCands cfg input) (freq1 cfg input) fuel =
          minerLoop cfg 2 (initialCands cfg input) (freq1 cfg input) (fuelBound input)) ∧
      (∀ (k : Nat) (cands : List (List ItemSet)) (freqPrev : List (ItemSet × Nat)) (fuel : Nat),
        freqPrev.length < k → minerLoop cfg k cands freqPrev fuel = ([], [])) ∧
      (∀ (k : Nat) (cands : List (List ItemSet)) (freqPrev : List (ItemSet × Nat)) (fuel : Nat),
        k ≤ freqPrev.length →
          minerLoop cfg k cands freqPrev (fuel + 1) =
            (emitLevel cfg k (prune cfg.sigma (buildTable (stepCands freqPrev cands))) ++
              (minerLoop cfg (k + 1) (stepCands freqPrev cands)
                (prune cfg.sigma (buildTable (stepCands freqPrev cands))) fuel).1,
              (if cfg.verbose then
                  [levelMsg k (buildTable (stepCands freqPrev cands)).length
                    (prune cfg.sigma (buildTable (stepCands freqPrev cands))).length cfg.sigma]
                else []) ++
                (minerLoop cfg (k + 1) (stepCands freqPrev cands)
                  (prune cfg.sigma (buildTable (stepCands freqPrev cands))) fuel).2)) ∧
      (retainedTx cfg input = [] → apriori cfg input = []) := by
  refine ⟨?_, ?_, ?_, ?_⟩
  · intro fuel hf
    exact minerRun_fuel_stable hf
  · intro k cands freqPrev fuel hlt
    exact minerLoop_guard_false (by omega) fuel
  · intro k cands freqPrev fuel hg
    simp only [minerLoop]
    rw [if_pos hg]
  · intro h
    have hic : initialCands cfg input = [] := by
      rw [initialCands, h]
      rfl
    show (minerLoop cfg 2 (initialCands cfg input) (freq1 cfg input) (fuelBound input)).1 = []
    have hfreq : freq1 cfg input = [] := by
      rw [freq1, table1, hic]
      rfl
    rw [hic, hfreq, minerLoop_guard_false (by simp)]

theorem miner_terminates_witness :
    (minerLoop ⟨3, 4, false⟩ 2 (initialCands ⟨3, 4, false⟩ [[1, 2]])
        (freq1 ⟨3, 4, false⟩ [[1, 2]]) 5 =
      minerLoop ⟨3, 4, false⟩ 2 (initialCands ⟨3, 4, false⟩ [[1, 2]])
        (freq1 ⟨3, 4, false⟩ [[1, 2]]) (fuelBound [[1, 2]])) ∧
      minerLoop ⟨3, 4, false⟩ 5 [] [] 7 = ([], []) ∧
      apriori ⟨3, 4, false⟩ [[1, 2]] = [] :=
  ⟨(miner_terminates ⟨3, 4, false⟩ [[1, 2]]).1 5 (by decide),
    (miner_terminates ⟨3, 4, false⟩ [[1, 2]]).2.1 5 [] [] 7 (by decide),
    (miner_terminates ⟨3, 4, false⟩ [[1, 2]]).2.2.2 (by decide)⟩

/-- C7: a non-integer token in any input record makes loading fail and the
failure propagates to the caller: the run of that invocation produces no
mining output at all, instead of silently skipping the offending
transaction. -/
theorem parse_error_propagates (cfg : Config) (lines : List String) (line tok : String)
    (hline : line ∈ lines) (htok : tok ∈ lineTokens line) (hbad : pyInt tok = none) :
    aprioriFromLines cfg lines = none := by
  have h1 : parseLine line = none := mapM_eq_none_of_mem pyInt (lineTokens line) tok htok hbad
  have h2 : parseLog lines = none := mapM_eq_none_of_mem parseLine lines line hline h1
  rw [aprioriFromLines, h2]
  rfl

theorem parse_error_propagates_witness :
    aprioriFromLines ⟨3, 4, false⟩ ["1 2 3", "4 x 5"] = none :=
  parse_error_propagates ⟨3, 4, false⟩ ["1 2 3", "4 x 5"] "4 x 5" "x"
    (by decide) (by decide) (by decide)

/-- C8: running the algorithm twice on the same input, configuration and
output sink produces byte-identical output; a run's resulting file bytes
do not depend on the prior sink content, which `main` truncates before
mining. -/
theorem rerun_byte_identical :
    ∀ (cfg : Config) (input : List (List Int)) (s s' : String),
      mainRun cfg input (mainRun cfg input s) = mainRun cfg input s ∧
        mainRun cfg input s = mainRun cfg input s' :=
  fun _ _ _ _ => ⟨rfl, rfl⟩

/-- C9: the emitted records and the output file bytes are identical
whether verbose is true or false; the flag gates the diagnostic strings
only. -/
theorem verbose_no_effect :
    ∀ (mn sg : Int) (v₁ v₂ : Bool) (input : List (List Int)) (s : String),
      (aprioriD ⟨mn, sg, v₁⟩ input).1 = (aprioriD ⟨mn, sg, v₂⟩ input).1 ∧
        mainRun ⟨mn, sg, v₁⟩ input s = mainRun ⟨mn, sg, v₂⟩ input s := by
  intro mn sg v₁ v₂ input s
  have h : (aprioriD ⟨mn, sg, v₁⟩ input).1 = (aprioriD ⟨mn, sg, v₂⟩ input).1 :=
    minerLoop_verbose_indep mn sg v₁ v₂ (fuelBound input) 2
      (initialCands ⟨mn, sg, v₁⟩ input) (freq1 ⟨mn, sg, v₁⟩ input)
  refine ⟨h, ?_⟩
  show "" ++ renderOutput (apriori ⟨mn, sg, v₁⟩ input) =
    "" ++ renderOutput (apriori ⟨mn, sg, v₂⟩ input)
  rw [show apriori ⟨mn, sg, v₁⟩ input = (aprioriD ⟨mn, sg, v₁⟩ input).1 from rfl,
    show apriori ⟨mn, sg, v₂⟩ input = (aprioriD ⟨mn, sg, v₂⟩ input).1 from rfl, h]

/-- C10: every stored per-transaction candidate list — the initial
singleton lists, and every list a level step produces from a state
satisfying the level invariant — contains only strictly increasing tuples
of the level's size, holds no tuple more than once, and therefore each
item-set counts at most once per transaction per level. -/
theorem candidate_lists_invariant :
    (∀ (cfg : Config) (input : List (List Int)), ∀ l ∈ initialCands cfg input,
        l.Nodup ∧ ∀ S ∈ l, S.Sorted (· < ·) ∧ S.length = 1 ∧ l.count S ≤ 1) ∧
      ∀ (ts : List (List Item)) (cands : List (List ItemSet))
        (freq : List (ItemSet × Nat)) (m : Nat),
        GoodAll (m + 1) cands.flatten →
        List.Forall₂ (TxInv cands.flatten) ts cands →
        ∀ l ∈ stepCands freq cands,
          l.Nodup ∧ ∀ S ∈ l, S.Sorted (· < ·) ∧ S.length = m + 2 ∧ l.count S ≤ 1 := by
  constructor
  · intro cfg input l hl
    rw [initialCands] at hl
    obtain ⟨t, ht, rfl⟩ := List.mem_map.mp hl
    have hnd : (singletons t).Nodup :=
      ((retainedTx_mem ht).1).nodup.map (fun a b h => by simpa using h)
    refine ⟨hnd, ?_⟩
    intro S hS
    obtain ⟨a, ha, rfl⟩ := List.mem_map.mp hS
    exact ⟨List.sorted_singleton a, rfl, (count_one_of_nodup_mem hnd hS).le⟩
  · intro ts cands freq m hGood hinv l hl
    obtain ⟨hGood', hinv'⟩ := inv_step freq hGood hinv
    obtain ⟨t, ht, htx⟩ := forall₂_mem_right hinv' l hl
    refine ⟨htx.1, ?_⟩
    intro S hS
    obtain ⟨hsort, hlen⟩ := hGood' S (List.mem_flatten.mpr ⟨l, hl, hS⟩)
    exact ⟨hsort, hlen, (count_one_of_nodup_mem htx.1 hS).le⟩

theorem candidate_lists_invariant_witness :
    (joinPairs (narrow [([1], 2), ([2], 2)] [[1], [2]])).Nodup :=
  ((candidate_lists_invariant.2 [[1, 2]] [[[1], [2]]] [([1], 2), ([2], 2)] 0
      (fun S hS => by fin_cases hS <;> exact ⟨by decide, rfl⟩)
      (List.Forall₂.cons
        (⟨by decide, by decide, by decide⟩ : TxInv ([[[1], [2]]] : List (List ItemSet)).flatten
          [1, 2] [[1], [2]])
        List.Forall₂.nil)
      (joinPairs (narrow [([1], 2), ([2], 2)] [[1], [2]])) (by decide))).1
